import Mathlib

/-!
Verification of the `strip-codeblocks` library (`src/lib.rs`).

The whole library is one function:

  pub fn strip_codeblocks(text: &str) -> String {
      let re = Regex::new(r"(?s)```[^\n`]*\n(.*?)```").unwrap();
      re.replace_all(text, |caps| caps.get(1). ... ).to_string()
  }

We embed the input as a `List Char` and model the regex engine's behaviour
on this particular pattern.  The pattern is anchored nowhere, so
`replace_all` repeatedly finds the leftmost match and replaces it with the
first capture group, resuming the scan immediately after the matched span.

For this fixed pattern a match attempt at a given position is
deterministic:

* three literal backticks;
* `[^\n`]*` — the (greedy) language tag: since its character class
  excludes both `\n` and the backtick, and the next pattern character is a
  literal `\n`, the only possible way to continue is to consume the maximal
  run of non-newline non-backtick characters and then require a newline;
* `(.*?)` with `(?s)` — the lazy content capture: the shortest span (any
  characters, newlines included) followed by three literal backticks.

`matchAt` below implements exactly this attempt at the head of the list;
`replaceAllFuel` implements the scan of `replace_all` (fuel makes the
recursion structural; the fuel `s.length` is always sufficient because a
match consumes at least seven characters).
-/

/-- The backtick character (written via its code point so that the source
of this file stays free of stray backticks). -/
def tick : Char := Char.ofNat 96

/-- The list of three backticks: a fence delimiter. -/
def tripleL : List Char := [tick, tick, tick]

/-- Characters allowed in the language-tag position: the regex class
`[^\n`]` — anything except newline and backtick. -/
def tagChar (c : Char) : Bool := !(c == '\n' || c == tick)

/-- Split a list into its maximal leading run of tag characters and the
rest: the behaviour of the greedy `[^\n`]*`. -/
def splitTag : List Char → List Char × List Char
  | [] => ([], [])
  | c :: cs =>
    if tagChar c then
      let p := splitTag cs
      (c :: p.1, p.2)
    else ([], c :: cs)

/-- Find the first occurrence of three consecutive backticks: returns the
content before it and the remainder after it (the lazy `(.*?)` followed by
the literal closing fence).  `none` when no triple backtick occurs. -/
def findClose : List Char → Option (List Char × List Char)
  | c1 :: c2 :: c3 :: cs =>
    if c1 = tick ∧ c2 = tick ∧ c3 = tick then some ([], cs)
    else
      match findClose (c2 :: c3 :: cs) with
      | some (u, v) => some (c1 :: u, v)
      | none => none
  | _ => none

/-- A single match attempt of the pattern at the head of `s`: on success
returns the captured content and the remainder of the input after the full
match. -/
def matchAt (s : List Char) : Option (List Char × List Char) :=
  match s with
  | c1 :: c2 :: c3 :: rest =>
    if c1 = tick ∧ c2 = tick ∧ c3 = tick then
      match (splitTag rest).2 with
      | d :: body => if d = '\n' then findClose body else none
      | [] => none
    else none
  | _ => none

/-- The scan of `replace_all` for a matcher `m`: at each position try the
matcher; on success emit the capture and resume after the match, otherwise
emit the character and advance by one.  The fuel argument bounds the number
of steps and makes the recursion structural. -/
def replaceAllFuel (m : List Char → Option (List Char × List Char)) :
    Nat → List Char → List Char
  | 0, s => s
  | _ + 1, [] => []
  | fuel + 1, c :: cs =>
    match m (c :: cs) with
    | some (u, v) => u ++ replaceAllFuel m fuel v
    | none => c :: replaceAllFuel m fuel cs

/-- `replace_all` over a character list with the fence pattern. -/
def stripList (s : List Char) : List Char :=
  replaceAllFuel matchAt s.length s

/-- The library function `strip_codeblocks`. -/
def strip_codeblocks (text : String) : String :=
  String.mk (stripList text.data)

/-- Modelled from the spec: construction of the matching engine from the
pattern literal (the source's fallible step, Regex::new followed by
unwrap).  Construction of an engine from a pattern can fail in general;
the spec states that it always succeeds for the fixed, well-formed fence
pattern used here, so the model returns the fence matcher. -/
def regexNewFence : Option (List Char → Option (List Char × List Char)) :=
  some matchAt

/-- The library function with the fallible construction step explicit:
the none branch models the panic of the unwrap on the engine
construction. -/
def strip_codeblocksChecked (text : String) : Option String :=
  match regexNewFence with
  | none => none
  | some m => some (String.mk (replaceAllFuel m text.data.length text.data))

/-- Whether a list contains three consecutive backticks anywhere. -/
def hasTriple : List Char → Bool
  | c1 :: c2 :: c3 :: cs =>
    (c1 == tick && c2 == tick && c3 == tick) || hasTriple (c2 :: c3 :: cs)
  | _ => false

example : stripList ("```rust\nfn main() {}\n```").data = ("fn main() {}\n").data := by decide
example : stripList ("```\n\n```").data = ("\n").data := by decide
example : stripList ("```\n```").data = ([] : List Char) := by decide
example : stripList ("just `inline` text").data = ("just `inline` text").data := by decide

/-! ### Structure of the tag splitter -/

theorem tagChar_newline : tagChar '\n' = false := by decide

theorem tagChar_tick : tagChar tick = false := by decide

theorem splitTag_eq_append : ∀ s : List Char, (splitTag s).1 ++ (splitTag s).2 = s := by
  intro s
  induction s with
  | nil => simp [splitTag]
  | cons c cs ih =>
    by_cases h : tagChar c
    · simp [splitTag, h, ih]
    · simp [splitTag, h]

theorem splitTag_fst_tagChar :
    ∀ s : List Char, ∀ c ∈ (splitTag s).1, tagChar c = true := by
  intro s
  induction s with
  | nil => simp [splitTag]
  | cons c cs ih =>
    by_cases h : tagChar c
    · simp only [splitTag, h, if_pos]
      intro d hd
      rcases List.mem_cons.mp hd with rfl | hd'
      · exact h
      · exact ih d hd'
    · simp [splitTag, h]

theorem splitTag_of_allTag (t r : List Char) (ht : ∀ c ∈ t, tagChar c = true) :
    splitTag (t ++ '\n' :: r) = (t, '\n' :: r) := by
  induction t with
  | nil => simp [splitTag, tagChar_newline]
  | cons c t' ih =>
    have hc : tagChar c = true := ht c (List.mem_cons_self c t')
    have ih' := ih (fun d hd => ht d (List.mem_cons_of_mem c hd))
    simp [splitTag, hc, ih']

theorem splitTag_tick (xs : List Char) : splitTag (tick :: xs) = ([], tick :: xs) := by
  simp [splitTag, tagChar_tick]

/-! ### Structure of the closing-fence search -/

theorem findClose_some_decomp :
    ∀ b u v : List Char, findClose b = some (u, v) → b = u ++ tripleL ++ v := by
  intro b
  induction b with
  | nil => intro u v h; simp [findClose] at h
  | cons c1 rest ih =>
    intro u v h
    match rest with
    | [] => simp [findClose] at h
    | [c2] => simp [findClose] at h
    | c2 :: c3 :: cs =>
      rw [findClose] at h
      by_cases htr : c1 = tick ∧ c2 = tick ∧ c3 = tick
      · rw [if_pos htr] at h
        obtain ⟨rfl, rfl, rfl⟩ := htr
        obtain ⟨rfl, rfl⟩ := Prod.mk.injEq .. ▸ Option.some.injEq .. ▸ h
        simp [tripleL]
      · rw [if_neg htr] at h
        cases heq : findClose (c2 :: c3 :: cs) with
        | none => rw [heq] at h; simp at h
        | some p =>
          obtain ⟨u', v'⟩ := p
          rw [heq] at h
          simp only [Option.some.injEq, Prod.mk.injEq] at h
          obtain ⟨rfl, rfl⟩ := h
          have hrec := ih _ _ heq
          simp [hrec]

/-! ### The triple-backtick predicate -/

theorem hasTriple_cons_of (c : Char) (t : List Char) (h : hasTriple t = true) :
    hasTriple (c :: t) = true := by
  match t with
  | [] => simp [hasTriple] at h
  | [t1] => simp [hasTriple] at h
  | [t1, t2] => simp [hasTriple] at h
  | t1 :: t2 :: t3 :: ts =>
    rw [hasTriple]
    rw [h]
    simp

theorem hasTriple_iff (s : List Char) :
    hasTriple s = true ↔ ∃ a b, s = a ++ tripleL ++ b := by
  constructor
  · intro h
    induction s with
    | nil => simp [hasTriple] at h
    | cons c1 rest ih =>
      match rest with
      | [] => simp [hasTriple] at h
      | [c2] => simp [hasTriple] at h
      | c2 :: c3 :: cs =>
        rw [hasTriple] at h
        rcases Bool.or_eq_true_iff.mp h with h1 | h2
        · have h1' : c1 = tick ∧ c2 = tick ∧ c3 = tick := by
            simpa [Bool.and_eq_true, beq_iff_eq, and_assoc] using h1
          obtain ⟨rfl, rfl, rfl⟩ := h1'
          exact ⟨[], cs, by simp [tripleL]⟩
        · obtain ⟨a, b, hab⟩ := ih h2
          exact ⟨c1 :: a, b, by simp [hab]⟩
  · rintro ⟨a, b, rfl⟩
    induction a with
    | nil => simp [tripleL, hasTriple]
    | cons c a' ih => exact hasTriple_cons_of c _ ih

theorem hasTriple_append_left (a b : List Char) (h : hasTriple a = true) :
    hasTriple (a ++ b) = true := by
  obtain ⟨x, y, rfl⟩ := (hasTriple_iff a).mp h
  exact (hasTriple_iff _).mpr ⟨x, y ++ b, by simp⟩

theorem hasTriple_append_right (a b : List Char) (h : hasTriple b = true) :
    hasTriple (a ++ b) = true := by
  obtain ⟨x, y, rfl⟩ := (hasTriple_iff b).mp h
  exact (hasTriple_iff _).mpr ⟨a ++ x, y, by simp⟩

theorem findClose_min :
    ∀ b u v : List Char, findClose b = some (u, v) →
      ∀ a b', b = a ++ tripleL ++ b' → u.length ≤ a.length := by
  intro b
  induction b with
  | nil => intro u v h; simp [findClose] at h
  | cons c1 rest ih =>
    intro u v h a b' hab
    match rest with
    | [] => simp [findClose] at h
    | [c2] => simp [findClose] at h
    | c2 :: c3 :: cs =>
      rw [findClose] at h
      by_cases htr : c1 = tick ∧ c2 = tick ∧ c3 = tick
      · rw [if_pos htr] at h
        simp only [Option.some.injEq, Prod.mk.injEq] at h
        obtain ⟨rfl, rfl⟩ := h
        simp
      · rw [if_neg htr] at h
        cases heq : findClose (c2 :: c3 :: cs) with
        | none => rw [heq] at h; simp at h
        | some p =>
          obtain ⟨u', v'⟩ := p
          rw [heq] at h
          simp only [Option.some.injEq, Prod.mk.injEq] at h
          obtain ⟨rfl, rfl⟩ := h
          match a with
          | [] =>
            exfalso
            apply htr
            have hab' : c1 :: c2 :: c3 :: cs = tick :: tick :: tick :: b' := by
              simpa [tripleL] using hab
            injection hab' with e1 hrest1
            injection hrest1 with e2 hrest2
            injection hrest2 with e3 _
            exact ⟨e1, e2, e3⟩
          | x :: a'' =>
            have htail : c2 :: c3 :: cs = a'' ++ tripleL ++ b' := by
              have hab' : c1 :: (c2 :: c3 :: cs) = x :: (a'' ++ tripleL ++ b') := by
                simpa using hab
              injection hab'
            have := ih _ _ heq a'' b' htail
            simp only [List.length_cons]
            omega

theorem findClose_triple (v : List Char) :
    findClose (tick :: tick :: tick :: v) = some ([], v) := by
  rw [findClose, if_pos ⟨rfl, rfl, rfl⟩]

theorem findClose_exact :
    ∀ u v : List Char, hasTriple u = false → u.getLast? ≠ some tick →
      findClose (u ++ tripleL ++ v) = some (u, v) := by
  intro u
  induction u with
  | nil =>
    intro v _ _
    show findClose (tick :: tick :: tick :: v) = some ([], v)
    exact findClose_triple v
  | cons c u' ih =>
    intro v hnt hlast
    match u' with
    | [] =>
      have hc : c ≠ tick := fun h => hlast (by simp [h])
      show findClose (c :: tick :: tick :: (tick :: v)) = some ([c], v)
      rw [findClose, if_neg (fun h => hc h.1), findClose_triple v]
    | [d] =>
      have hd : d ≠ tick := fun h => hlast (by simp [h])
      have hrec : findClose (d :: tick :: tick :: (tick :: v)) = some ([d], v) := by
        have := ih v (by simp [hasTriple]) (by simpa using hd)
        simpa [tripleL] using this
      show findClose (c :: d :: tick :: (tick :: tick :: v)) = some ([c, d], v)
      rw [findClose, if_neg (fun h => hd h.2.1), hrec]
    | d1 :: d2 :: u'' =>
      rw [hasTriple] at hnt
      simp only [Bool.or_eq_false_iff] at hnt
      have hni : ¬(c = tick ∧ d1 = tick ∧ d2 = tick) := by
        rintro ⟨rfl, rfl, rfl⟩
        simp at hnt
      have hlast' : (d1 :: d2 :: u'').getLast? ≠ some tick := by
        rw [List.getLast?_cons_cons] at hlast
        exact hlast
      have hrec : findClose (d1 :: d2 :: (u'' ++ tripleL ++ v)) =
          some (d1 :: d2 :: u'', v) := by
        have := ih v hnt.2 hlast'
        simpa using this
      show findClose (c :: d1 :: d2 :: (u'' ++ tripleL ++ v)) =
        some (c :: d1 :: d2 :: u'', v)
      rw [findClose, if_neg hni, hrec]

theorem findClose_none : ∀ b : List Char, hasTriple b = false → findClose b = none := by
  intro b
  induction b with
  | nil => intro _; simp [findClose]
  | cons c1 rest ih =>
    intro h
    match rest with
    | [] => simp [findClose]
    | [c2] => simp [findClose]
    | c2 :: c3 :: cs =>
      rw [hasTriple] at h
      simp only [Bool.or_eq_false_iff] at h
      have hni : ¬(c1 = tick ∧ c2 = tick ∧ c3 = tick) := by
        rintro ⟨rfl, rfl, rfl⟩
        simp at h
      rw [findClose, if_neg hni, ih h.2]

/-! ### Structure of a successful match attempt -/

theorem matchAt_fence (t b : List Char) (ht : ∀ c ∈ t, tagChar c = true) :
    matchAt (tripleL ++ (t ++ '\n' :: b)) = findClose b := by
  show matchAt (tick :: tick :: tick :: (t ++ '\n' :: b)) = findClose b
  rw [matchAt]
  rw [if_pos ⟨rfl, rfl, rfl⟩, splitTag_of_allTag t b ht]
  simp

theorem matchAt_some_spec :
    ∀ s u v : List Char, matchAt s = some (u, v) →
      ∃ t, (∀ c ∈ t, tagChar c = true) ∧
        s = tripleL ++ (t ++ '\n' :: (u ++ tripleL ++ v)) ∧
        findClose (u ++ tripleL ++ v) = some (u, v) := by
  intro s u v h
  match s with
  | [] => simp [matchAt] at h
  | [c1] => simp [matchAt] at h
  | [c1, c2] => simp [matchAt] at h
  | c1 :: c2 :: c3 :: rest =>
    rw [matchAt] at h
    by_cases htr : c1 = tick ∧ c2 = tick ∧ c3 = tick
    · rw [if_pos htr] at h
      obtain ⟨rfl, rfl, rfl⟩ := htr
      cases hsp : (splitTag rest).2 with
      | nil => rw [hsp] at h; simp at h
      | cons d body =>
        rw [hsp] at h
        have h' : (if d = '\n' then findClose body else none) = some (u, v) := h
        by_cases hd : d = '\n'
        · subst hd
          rw [if_pos rfl] at h'
          replace h := h'
          have hdec := findClose_some_decomp body u v h
          refine ⟨(splitTag rest).1, splitTag_fst_tagChar rest, ?_, ?_⟩
          · have hr : rest = (splitTag rest).1 ++ '\n' :: (u ++ tripleL ++ v) := by
              conv_lhs => rw [← splitTag_eq_append rest]
              rw [hsp, hdec]
            show tick :: tick :: tick :: rest =
              tripleL ++ ((splitTag rest).1 ++ '\n' :: (u ++ tripleL ++ v))
            conv_lhs => rw [hr]
            simp [tripleL]
          · rw [← hdec]; exact h
        · rw [if_neg hd] at h'; simp at h'
    · rw [if_neg htr] at h; simp at h

theorem matchAt_some_length (s u v : List Char) (h : matchAt s = some (u, v)) :
    u.length + v.length + 7 ≤ s.length := by
  obtain ⟨t, _, rfl, _⟩ := matchAt_some_spec s u v h
  simp [tripleL]
  omega

theorem matchAt_none_short (s : List Char) (h : s.length < 7) : matchAt s = none := by
  cases hm : matchAt s with
  | none => rfl
  | some p =>
    obtain ⟨u, v⟩ := p
    have := matchAt_some_length s u v hm
    omega

/-! ### Fuel adequacy for the scan -/

theorem replaceAllFuel_nil (m : List Char → Option (List Char × List Char)) :
    ∀ f, replaceAllFuel m f [] = [] := by
  intro f
  cases f <;> rfl

theorem replaceAllFuel_matchAt_eq :
    ∀ f1 f2 s, s.length ≤ f1 → s.length ≤ f2 →
      replaceAllFuel matchAt f1 s = replaceAllFuel matchAt f2 s := by
  intro f1
  induction f1 with
  | zero =>
    intro f2 s h1 _
    have hs : s = [] := List.eq_nil_of_length_eq_zero (Nat.le_zero.mp h1)
    subst hs
    rw [replaceAllFuel_nil, replaceAllFuel_nil]
  | succ n ih =>
    intro f2 s h1 h2
    match s with
    | [] => rw [replaceAllFuel_nil, replaceAllFuel_nil]
    | c :: cs =>
      match f2 with
      | 0 => simp at h2
      | g + 1 =>
        show (match matchAt (c :: cs) with
          | some (u, v) => u ++ replaceAllFuel matchAt n v
          | none => c :: replaceAllFuel matchAt n cs) =
          (match matchAt (c :: cs) with
          | some (u, v) => u ++ replaceAllFuel matchAt g v
          | none => c :: replaceAllFuel matchAt g cs)
        cases hm : matchAt (c :: cs) with
        | none =>
          have hcs : cs.length ≤ n := by simpa using h1
          have hcs' : cs.length ≤ g := by simpa using h2
          simp only []
          rw [ih g cs hcs hcs']
        | some p =>
          obtain ⟨u, v⟩ := p
          have hlen := matchAt_some_length _ _ _ hm
          simp only [List.length_cons] at h1 h2 hlen
          have hv : v.length ≤ n := by omega
          have hv' : v.length ≤ g := by omega
          simp only []
          rw [ih g v hv hv']

theorem stripList_nil : stripList [] = [] := rfl

theorem stripList_cons_some (c : Char) (cs u v : List Char)
    (h : matchAt (c :: cs) = some (u, v)) :
    stripList (c :: cs) = u ++ stripList v := by
  have hlen := matchAt_some_length _ _ _ h
  simp only [List.length_cons] at hlen
  show replaceAllFuel matchAt (c :: cs).length (c :: cs) = u ++ stripList v
  simp only [List.length_cons]
  show (match matchAt (c :: cs) with
    | some (u, v) => u ++ replaceAllFuel matchAt cs.length v
    | none => c :: replaceAllFuel matchAt cs.length cs) = u ++ stripList v
  rw [h]
  simp only []
  rw [replaceAllFuel_matchAt_eq cs.length v.length v (by omega) (le_refl _)]
  rfl

theorem stripList_cons_none (c : Char) (cs : List Char) (h : matchAt (c :: cs) = none) :
    stripList (c :: cs) = c :: stripList cs := by
  show replaceAllFuel matchAt (c :: cs).length (c :: cs) = c :: stripList cs
  simp only [List.length_cons]
  show (match matchAt (c :: cs) with
    | some (u, v) => u ++ replaceAllFuel matchAt cs.length v
    | none => c :: replaceAllFuel matchAt cs.length cs) = c :: stripList cs
  rw [h]
  rfl

/-! ### Scan lemmas -/

theorem stripList_of_nomatch :
    ∀ s : List Char, (∀ a b, s = a ++ b → matchAt b = none) → stripList s = s := by
  intro s
  induction s with
  | nil => intro _; rfl
  | cons c cs ih =>
    intro h
    rw [stripList_cons_none c cs (h [] (c :: cs) rfl)]
    rw [ih (fun a b hab => h (c :: a) b (by simp [hab]))]

theorem stripList_append_nomatch :
    ∀ p q : List Char, (∀ a b, p = a ++ b → b ≠ [] → matchAt (b ++ q) = none) →
      stripList (p ++ q) = p ++ stripList q := by
  intro p
  induction p with
  | nil => intro q _; simp
  | cons c p' ih =>
    intro q h
    have h0 : matchAt (c :: (p' ++ q)) = none := by
      have := h [] (c :: p') rfl (by simp)
      simpa using this
    rw [List.cons_append, stripList_cons_none _ _ h0]
    rw [ih q (fun a b hab hb => h (c :: a) b (by simp [hab]) hb)]
    simp

theorem noTriple_nomatch (s : List Char) (h : hasTriple s = false) :
    ∀ a b, s = a ++ b → matchAt b = none := by
  intro a b hab
  cases hm : matchAt b with
  | none => rfl
  | some p =>
    obtain ⟨u, v⟩ := p
    obtain ⟨t, _, hb, _⟩ := matchAt_some_spec b u v hm
    exfalso
    have hbt : hasTriple b = true := by
      rw [hb]
      exact hasTriple_append_left _ _
        ((hasTriple_iff tripleL).mpr ⟨[], [], by simp⟩)
    have : hasTriple s = true := hab ▸ hasTriple_append_right a b hbt
    rw [h] at this
    exact Bool.false_ne_true this

theorem noTriple_strip (s : List Char) (h : hasTriple s = false) : stripList s = s :=
  stripList_of_nomatch s (noTriple_nomatch s h)

theorem stripList_short (s : List Char) (h : s.length < 7) : stripList s = s := by
  apply stripList_of_nomatch
  intro a b hab
  apply matchAt_none_short
  have : a.length + b.length = s.length := by rw [hab]; simp
  omega

/-! ### Trailing backtick runs -/

theorem replicate_tick_append_tripleL (k : Nat) :
    List.replicate k tick ++ tripleL = tripleL ++ List.replicate k tick := by
  have h3 : tripleL = List.replicate 3 tick := rfl
  rw [h3, ← List.replicate_add, ← List.replicate_add, Nat.add_comm]

theorem trailing_run_decomp :
    ∀ u : List Char, hasTriple u = false →
      ∃ u0 k, k ≤ 2 ∧ u = u0 ++ List.replicate k tick ∧ u0.getLast? ≠ some tick := by
  intro u
  induction u using List.reverseRecOn with
  | nil => intro _; exact ⟨[], 0, by omega, by simp, by simp⟩
  | append_singleton xs c ih =>
    intro h
    have hxs : hasTriple xs = false := by
      by_contra hx
      rw [Bool.not_eq_false] at hx
      have := hasTriple_append_left xs [c] hx
      rw [h] at this
      exact Bool.false_ne_true this
    by_cases hc : c = tick
    · subst hc
      obtain ⟨u0, k, hk, hdec, hlast⟩ := ih hxs
      have hk1 : k ≤ 1 := by
        by_contra hk2
        have hk' : k = 2 := by omega
        subst hk'
        have htr : hasTriple (xs ++ [tick]) = true := by
          rw [hdec]
          have he : (u0 ++ List.replicate 2 tick) ++ [tick] = u0 ++ tripleL ++ [] := by
            simp [tripleL, List.replicate]
          rw [he]
          exact (hasTriple_iff _).mpr ⟨u0, [], rfl⟩
        rw [h] at htr
        exact Bool.false_ne_true htr
      refine ⟨u0, k + 1, by omega, ?_, hlast⟩
      rw [hdec, List.replicate_succ']
      simp
    · refine ⟨xs ++ [c], 0, by omega, by simp, ?_⟩
      simp only [List.getLast?_concat]
      intro he
      exact hc (by simpa using he)

/-! ### Backtick runs in front of a fence -/

theorem matchAt_ticks_none (j : Nat) (r : List Char) (hj : 1 ≤ j) :
    matchAt (List.replicate j tick ++ (tripleL ++ r)) = none := by
  obtain ⟨m, rfl⟩ : ∃ m, j = m + 1 := ⟨j - 1, by omega⟩
  have hshape : List.replicate (m + 1) tick ++ (tripleL ++ r) =
      tick :: tick :: tick :: (tick :: (List.replicate m tick ++ r)) := by
    rw [show tripleL = List.replicate 3 tick from rfl, ← List.append_assoc,
      ← List.replicate_add, show m + 1 + 3 = 4 + m by omega, List.replicate_add]
    simp [List.replicate_succ, List.append_assoc]
  rw [hshape, matchAt, if_pos ⟨rfl, rfl, rfl⟩, splitTag_tick]
  show (if tick = '\n' then findClose (List.replicate m tick ++ r) else none) = none
  rw [if_neg (by decide)]

theorem stripList_run_fence (k : Nat) (r : List Char) :
    stripList (List.replicate k tick ++ (tripleL ++ r)) =
      List.replicate k tick ++ stripList (tripleL ++ r) := by
  apply stripList_append_nomatch
  intro a b hab hb
  have hmem : ∀ x ∈ b, x = tick := fun x hx =>
    List.eq_of_mem_replicate (hab ▸ List.mem_append_right a hx)
  have hbrep : b = List.replicate b.length tick := List.eq_replicate_length.mpr hmem
  have hlen1 : 1 ≤ b.length := List.length_pos.mpr hb
  rw [hbrep]
  exact matchAt_ticks_none b.length r hlen1

/-! ### Evaluating the scan on a clean fence -/

theorem stripList_fence (t b u v : List Char) (ht : ∀ c ∈ t, tagChar c = true)
    (hfc : findClose b = some (u, v)) :
    stripList (tripleL ++ (t ++ '\n' :: b)) = u ++ stripList v := by
  have hm : matchAt (tick :: tick :: tick :: (t ++ '\n' :: b)) = some (u, v) :=
    (matchAt_fence t b ht).trans hfc
  exact stripList_cons_some _ _ _ _ hm

theorem findClose_content (u v : List Char) (h : hasTriple u = false) :
    ∃ u0 k, k ≤ 2 ∧ u = u0 ++ List.replicate k tick ∧
      findClose (u ++ tripleL ++ v) = some (u0, List.replicate k tick ++ v) := by
  obtain ⟨u0, k, hk, rfl, hlast⟩ := trailing_run_decomp u h
  refine ⟨u0, k, hk, rfl, ?_⟩
  have h0 : hasTriple u0 = false := by
    by_contra hx
    rw [Bool.not_eq_false] at hx
    have := hasTriple_append_left u0 (List.replicate k tick) hx
    rw [h] at this
    exact Bool.false_ne_true this
  have hre : (u0 ++ List.replicate k tick) ++ tripleL ++ v =
      u0 ++ tripleL ++ (List.replicate k tick ++ v) := by
    simp only [List.append_assoc]
    rw [← List.append_assoc (List.replicate k tick) tripleL v,
      replicate_tick_append_tripleL, List.append_assoc]
  rw [hre]
  exact findClose_exact u0 (List.replicate k tick ++ v) h0 hlast

/-! ### No triple backtick strictly inside a fence head -/

theorem noTriple_two_ticks (R : List Char) (h : hasTriple R = false)
    (hh : R.head? ≠ some tick) : hasTriple (tick :: tick :: R) = false := by
  match R with
  | [] => decide
  | [r0] =>
    have hr0 : r0 ≠ tick := fun he => hh (by simp [he])
    simp [hasTriple, hr0]
  | r0 :: r1 :: R'' =>
    have hr0 : r0 ≠ tick := fun he => hh (by simp [he])
    rw [hasTriple, hasTriple]
    have hR : hasTriple (r0 :: r1 :: R'') = false := h
    simp [hR, hr0]

theorem tag_body_no_triple_aux :
    ∀ (tag : List Char) (a b body : List Char),
      (∀ c ∈ tag, tagChar c = true) → hasTriple body = false →
      tag ++ '\n' :: body = a ++ tripleL ++ b → False := by
  intro tag
  induction tag with
  | nil =>
    intro a b body _ hb he
    match a with
    | [] =>
      have h' : '\n' :: body = tick :: tick :: tick :: b := by simpa [tripleL] using he
      injection h' with e _
      exact absurd e (by decide)
    | x :: a' =>
      have htail : body = a' ++ tripleL ++ b := by
        have h' : '\n' :: body = x :: (a' ++ tripleL ++ b) := by simpa using he
        injection h'
      have : hasTriple body = true := (hasTriple_iff body).mpr ⟨a', b, htail⟩
      rw [hb] at this
      exact Bool.false_ne_true this
  | cons c tag' ih =>
    intro a b body ht hb he
    match a with
    | [] =>
      have hc : c = tick := by
        have h' := he
        simp only [List.cons_append, List.nil_append, List.append_assoc, tripleL,
          List.cons.injEq] at h'
        exact h'.1
      have := ht c (List.mem_cons_self c tag')
      rw [hc, tagChar_tick] at this
      exact Bool.false_ne_true this
    | x :: a' =>
      have htail : tag' ++ '\n' :: body = a' ++ tripleL ++ b := by
        have h' : c :: (tag' ++ '\n' :: body) = x :: (a' ++ tripleL ++ b) := by
          simpa using he
        injection h'
      exact ih a' b body (fun d hd => ht d (List.mem_cons_of_mem c hd)) hb htail

theorem noTriple_tag_body (tag body : List Char)
    (ht : ∀ c ∈ tag, tagChar c = true) (hb : hasTriple body = false) :
    hasTriple (tag ++ '\n' :: body) = false := by
  cases hx : hasTriple (tag ++ '\n' :: body) with
  | false => rfl
  | true =>
    obtain ⟨a, b, he⟩ := (hasTriple_iff _).mp hx
    exact absurd (tag_body_no_triple_aux tag a b body ht hb he) (fun h => h)

theorem head_tag_body_ne_tick (tag body : List Char)
    (ht : ∀ c ∈ tag, tagChar c = true) :
    (tag ++ '\n' :: body).head? ≠ some tick := by
  match tag with
  | [] =>
    intro he
    simp at he
    exact absurd he (by decide)
  | c :: tag' =>
    intro he
    simp at he
    have := ht c (List.mem_cons_self c tag')
    rw [he, tagChar_tick] at this
    exact Bool.false_ne_true this

/-! ### The output is a subsequence of the input -/

theorem stripList_sublist : ∀ s : List Char, List.Sublist (stripList s) s := by
  have key : ∀ n s, s.length ≤ n → List.Sublist (stripList s) s := by
    intro n
    induction n with
    | zero =>
      intro s h
      have hs : s = [] := List.eq_nil_of_length_eq_zero (Nat.le_zero.mp h)
      subst hs
      rw [stripList_nil]
    | succ n ih =>
      intro s h
      match s with
      | [] => rw [stripList_nil]
      | c :: cs =>
        cases hm : matchAt (c :: cs) with
        | none =>
          rw [stripList_cons_none _ _ hm]
          exact (ih cs (by simpa using h)).cons₂ c
        | some p =>
          obtain ⟨u, v⟩ := p
          rw [stripList_cons_some _ _ _ _ hm]
          obtain ⟨t, ht, hs, hfc⟩ := matchAt_some_spec _ _ _ hm
          have hlen := matchAt_some_length _ _ _ hm
          simp only [List.length_cons] at h hlen
          have hv : List.Sublist (stripList v) v := ih v (by omega)
          have hs' : c :: cs = (tripleL ++ t ++ ['\n']) ++ (u ++ (tripleL ++ v)) := by
            rw [hs]; simp
          rw [hs']
          have h1 : List.Sublist (u ++ stripList v) (u ++ (tripleL ++ v)) :=
            (List.Sublist.refl u).append (hv.trans (List.sublist_append_right tripleL v))
          exact h1.trans (List.sublist_append_right _ _)
  intro s
  exact key s.length s (le_refl _)

theorem stripList_shorter_of_match :
    ∀ a b s u v : List Char, s = a ++ b → matchAt b = some (u, v) →
      (stripList s).length < s.length := by
  intro a
  induction a with
  | nil =>
    intro b s u v hs hm
    simp only [List.nil_append] at hs
    subst hs
    match s, hm with
    | c :: cs, hm =>
      rw [stripList_cons_some _ _ _ _ hm]
      have hsub := (stripList_sublist v).length_le
      have hlen := matchAt_some_length _ _ _ hm
      simp only [List.length_append, List.length_cons] at hlen ⊢
      omega
  | cons x a' ih =>
    intro b s u v hs hm
    subst hs
    simp only [List.cons_append]
    cases hm2 : matchAt (x :: (a' ++ b)) with
    | some p =>
      obtain ⟨u2, v2⟩ := p
      rw [stripList_cons_some _ _ _ _ hm2]
      have hsub := (stripList_sublist v2).length_le
      have hlen := matchAt_some_length _ _ _ hm2
      simp only [List.length_append, List.length_cons] at hlen ⊢
      omega
    | none =>
      rw [stripList_cons_none _ _ hm2]
      have := ih b (a' ++ b) u v rfl hm
      simpa using this

/-! ### Scanning the region between two blocks -/

theorem stripList_mid (a : Nat) (T L2 B : List Char) (ha : a ≤ 2)
    (hT : hasTriple T = false) (hhead : 1 ≤ a → T.head? ≠ some tick)
    (hL2 : ∀ c ∈ L2, tagChar c = true) (hB : hasTriple B = false) :
    stripList (List.replicate a tick ++
        (T ++ (tripleL ++ (L2 ++ '\n' :: (B ++ tripleL))))) =
      List.replicate a tick ++ (T ++ B) := by
  obtain ⟨T0, κ, hκ, hTdec, hT0last⟩ := trailing_run_decomp T hT
  have hT0 : hasTriple T0 = false := by
    by_contra hx
    rw [Bool.not_eq_false] at hx
    have happ := hasTriple_append_left T0 (List.replicate κ tick) hx
    rw [← hTdec, hT] at happ
    exact Bool.false_ne_true happ
  have hshape : List.replicate a tick ++ (T ++ (tripleL ++ (L2 ++ '\n' :: (B ++ tripleL)))) =
      (List.replicate a tick ++ T0) ++
        (List.replicate κ tick ++ (tripleL ++ (L2 ++ '\n' :: (B ++ tripleL)))) := by
    rw [hTdec]; simp [List.append_assoc]
  have hno : ∀ x b, List.replicate a tick ++ T0 = x ++ b → b ≠ [] →
      matchAt (b ++ (List.replicate κ tick ++ (tripleL ++ (L2 ++ '\n' :: (B ++ tripleL))))) =
        none := by
    intro x b hx hbne
    cases hm : matchAt
        (b ++ (List.replicate κ tick ++ (tripleL ++ (L2 ++ '\n' :: (B ++ tripleL))))) with
    | none => rfl
    | some p =>
      exfalso
      obtain ⟨u, v⟩ := p
      obtain ⟨t', ht', hsh, _⟩ := matchAt_some_spec _ _ _ hm
      have suffix_case : ∀ w, T0 = w ++ b → False := by
        intro w hw
        have hbl : b.getLast? ≠ some tick := by
          have he : (w ++ b).getLast? = b.getLast? := List.getLast?_append_of_ne_nil w hbne
          rw [← he, ← hw]
          exact hT0last
        match b, hbne, hsh, hbl, hw with
        | [c0], _, hsh, hbl, hw =>
          have h' := hsh
          simp only [List.cons_append, List.nil_append, tripleL, List.cons.injEq,
            List.append_assoc] at h'
          exact hbl (by simp [h'.1])
        | [c0, c1], _, hsh, hbl, hw =>
          have h' := hsh
          simp only [List.cons_append, List.nil_append, tripleL, List.cons.injEq,
            List.append_assoc] at h'
          exact hbl (by simp [h'.2.1])
        | c0 :: c1 :: c2 :: b', _, hsh, hbl, hw =>
          have h' := hsh
          simp only [List.cons_append, List.nil_append, tripleL, List.cons.injEq,
            List.append_assoc] at h'
          have htr : hasTriple T0 = true := by
            rw [hw]
            refine hasTriple_append_right w _ ?_
            exact (hasTriple_iff _).mpr
              ⟨[], b', by simp [tripleL, h'.1, h'.2.1, h'.2.2.1]⟩
          rw [hT0] at htr
          exact Bool.false_ne_true htr
      rcases List.append_eq_append_iff.mp hx with ⟨w, hw1, hw2⟩ | ⟨w, hw1, hw2⟩
      · exact suffix_case w hw2
      · have hwrep : w = List.replicate w.length tick :=
          List.eq_replicate_length.mpr
            (fun y hy => List.eq_of_mem_replicate (hw1 ▸ List.mem_append_right x hy))
        by_cases hw0 : w = []
        · subst hw0
          exact suffix_case [] (by simpa using hw2.symm)
        · have hj1 : 1 ≤ w.length := List.length_pos.mpr hw0
          have hja : w.length ≤ a := by
            have hlen := congrArg List.length hw1
            simp at hlen
            omega
          have hThead := hhead (by omega)
          cases T0 with
          | nil =>
            have hb' : b = List.replicate w.length tick := by
              rw [hw2]; simpa using hwrep
            have hnone : matchAt
                (b ++ (List.replicate κ tick ++ (tripleL ++ (L2 ++ '\n' :: (B ++ tripleL))))) =
                none := by
              rw [hb']
              rw [show List.replicate w.length tick ++
                    (List.replicate κ tick ++ (tripleL ++ (L2 ++ '\n' :: (B ++ tripleL)))) =
                  List.replicate (w.length + κ) tick ++
                    (tripleL ++ (L2 ++ '\n' :: (B ++ tripleL))) from by
                rw [List.replicate_add, List.append_assoc]]
              exact matchAt_ticks_none _ _ (by omega)
            rw [hnone] at hm
            exact Option.noConfusion hm
          | cons h0 T0' =>
            have hh0 : h0 ≠ tick := by
              intro he
              apply hThead
              rw [hTdec, he]
              simp
            have hw12 : w.length = 1 ∨ w.length = 2 := by omega
            rcases hw12 with h1 | h2
            · have hw' : w = [tick] := by rw [hwrep, h1]; decide
              subst hw'
              rw [hw2] at hsh
              have h' := hsh
              simp only [List.cons_append, List.nil_append, tripleL, List.cons.injEq,
                List.append_assoc, true_and] at h'
              exact hh0 h'.1
            · have hw' : w = [tick, tick] := by rw [hwrep, h2]; decide
              subst hw'
              rw [hw2] at hsh
              have h' := hsh
              simp only [List.cons_append, List.nil_append, tripleL, List.cons.injEq,
                List.append_assoc, true_and] at h'
              exact hh0 h'.1
  rw [hshape, stripList_append_nomatch _ _ hno, stripList_run_fence κ _]
  obtain ⟨B0, kb, hkb, hBdec, hfcB⟩ := findClose_content B [] hB
  have hfcB' : findClose (B ++ tripleL) = some (B0, List.replicate kb tick) := by
    simpa using hfcB
  rw [stripList_fence L2 (B ++ tripleL) B0 (List.replicate kb tick) hL2 hfcB']
  rw [stripList_short _ (by rw [List.length_replicate]; omega)]
  rw [hTdec, hBdec]
  simp [List.append_assoc]

/-! ## The claims -/

/-- C1: for every language tag without newline or backtick characters and
every content without a triple-backtick substring, stripping the single
well-formed block (the whole input) returns exactly the content. -/
theorem C1_content_preservation (L CONTENT : String)
    (hL : ∀ c ∈ L.data, tagChar c = true) (hC : hasTriple CONTENT.data = false) :
    strip_codeblocks
        (String.mk (tripleL ++ (L.data ++ '\n' :: (CONTENT.data ++ tripleL)))) =
      CONTENT := by
  show String.mk (stripList (tripleL ++ (L.data ++ '\n' :: (CONTENT.data ++ tripleL)))) =
    CONTENT
  obtain ⟨u0, k, hk, hdec, hfc⟩ := findClose_content CONTENT.data [] hC
  have hfc' : findClose (CONTENT.data ++ tripleL) = some (u0, List.replicate k tick) := by
    simpa using hfc
  rw [stripList_fence L.data (CONTENT.data ++ tripleL) u0 (List.replicate k tick) hL hfc']
  rw [stripList_short _ (by rw [List.length_replicate]; omega)]
  rw [← hdec]

/-- C1 witness: a concrete single block evaluates to its content. -/
theorem C1_witness :
    (∀ c ∈ ("rust" : String).data, tagChar c = true) ∧
    hasTriple ("x = 1\n" : String).data = false ∧
    strip_codeblocks (String.mk (tripleL ++ (("rust" : String).data ++ '\n' ::
        (("x = 1\n" : String).data ++ tripleL)))) = "x = 1\n" :=
  ⟨by decide, by decide, C1_content_preservation "rust" "x = 1\n" (by decide) (by decide)⟩

/-- C2: on any input without a run of three consecutive backticks — in
particular the empty string and inputs with only inline code spans — the
function is the identity. -/
theorem C2_block_free_identity (s : String) (h : hasTriple s.data = false) :
    strip_codeblocks s = s := by
  show String.mk (stripList s.data) = s
  rw [noTriple_strip s.data h]

/-- C2 witness: a concrete inline-only input passes through unchanged. -/
theorem C2_witness :
    hasTriple ("This has `inline` and ``x`` in it." : String).data = false ∧
    strip_codeblocks "This has `inline` and ``x`` in it." =
      "This has `inline` and ``x`` in it." :=
  ⟨by decide, C2_block_free_identity _ (by decide)⟩

/-- C3: every successful match captures lazily: the input decomposes as
fence, tag, newline, capture, closing fence, remainder; the capture holds
no triple backtick, and it is the shortest prefix of the post-newline text
followed by a triple backtick. -/
theorem C3_lazy_capture (s u v : List Char) (h : matchAt s = some (u, v)) :
    hasTriple u = false ∧
    ∃ t, (∀ c ∈ t, tagChar c = true) ∧
      s = tripleL ++ (t ++ '\n' :: (u ++ tripleL ++ v)) ∧
      ∀ u' v', u ++ tripleL ++ v = u' ++ tripleL ++ v' → u.length ≤ u'.length := by
  obtain ⟨t, ht, hs, hfc⟩ := matchAt_some_spec s u v h
  refine ⟨?_, t, ht, hs, fun u' v' he => findClose_min _ _ _ hfc u' v' he⟩
  by_contra hx
  rw [Bool.not_eq_false] at hx
  obtain ⟨a, b, hu⟩ := (hasTriple_iff u).mp hx
  have hmin := findClose_min _ _ _ hfc a (b ++ tripleL ++ v)
    (by rw [hu]; simp [List.append_assoc])
  have hlen : u.length = a.length + 3 + b.length := by
    rw [hu]; simp [tripleL]; omega
  omega

/-- C3 witness: a concrete match capture. -/
theorem C3_witness :
    matchAt ("```\na```" : String).data = some (['a'], ([] : List Char)) ∧
    (hasTriple ['a'] = false ∧
      ∃ t, (∀ c ∈ t, tagChar c = true) ∧
        ("```\na```" : String).data = tripleL ++ (t ++ '\n' :: (['a'] ++ tripleL ++ [])) ∧
        ∀ u' v', ['a'] ++ tripleL ++ [] = u' ++ tripleL ++ v' →
          (['a'] : List Char).length ≤ u'.length) :=
  ⟨by decide, C3_lazy_capture _ _ _ (by decide)⟩

/-- C4 counterexample: the input has a line starting with a four-backtick
run followed by a newline (its tag region is the single backtick after the
fence), yet the line is not left untouched: the output keeps just one of
the four backticks and even holds no triple backtick at all. -/
theorem C4_counterexample :
    strip_codeblocks "````\nx\n```" = "`x\n" ∧
    hasTriple (strip_codeblocks "````\nx\n```").data = false ∧
    strip_codeblocks "````\nx\n```" ≠ "````\nx\n```" :=
  ⟨by decide, by decide, by decide⟩

/-- C4 (amended): a triple-backtick run whose tag region holds a backtick
character is never matched as an opening fence at the start of the run:
the match attempt at that position fails.  (The line may still be altered,
because a match may begin inside the run, as the counterexample shows.) -/
theorem C4_tick_in_tag_no_match (tagreg rest : List Char)
    (h1 : tick ∈ tagreg) (h2 : '\n' ∉ tagreg) :
    matchAt (tripleL ++ (tagreg ++ '\n' :: rest)) = none := by
  have key : ∀ tr : List Char, tick ∈ tr → '\n' ∉ tr → ∀ r : List Char,
      ∃ post, (splitTag (tr ++ '\n' :: r)).2 = tick :: post := by
    intro tr
    induction tr with
    | nil => intro h _ _; simp at h
    | cons c tr' ih =>
      intro hmem hnl r
      by_cases hc : c = tick
      · subst hc
        exact ⟨tr' ++ '\n' :: r, by rw [List.cons_append, splitTag_tick]⟩
      · have hcn : c ≠ '\n' := fun he => hnl (by rw [← he]; exact List.mem_cons_self c tr')
        have htc : tagChar c = true := by simp [tagChar, hc, hcn]
        have hmem' : tick ∈ tr' := by
          rcases List.mem_cons.mp hmem with he | hm
          · exact absurd he.symm hc
          · exact hm
        have hnl' : '\n' ∉ tr' := fun hm => hnl (List.mem_cons_of_mem c hm)
        obtain ⟨post, hpost⟩ := ih hmem' hnl' r
        refine ⟨post, ?_⟩
        rw [List.cons_append]
        show (splitTag (c :: (tr' ++ '\n' :: r))).2 = tick :: post
        simp [splitTag, htc, hpost]
  obtain ⟨post, hpost⟩ := key tagreg h1 h2 rest
  show matchAt (tick :: tick :: tick :: (tagreg ++ '\n' :: rest)) = none
  rw [matchAt, if_pos ⟨rfl, rfl, rfl⟩, hpost]
  show (if tick = '\n' then findClose post else none) = none
  rw [if_neg (by decide)]

/-- C4 witness: a concrete four-backtick line fails to match at the start
of its run. -/
theorem C4_witness :
    tick ∈ [tick] ∧ '\n' ∉ [tick] ∧
    matchAt (tripleL ++ ([tick] ++ '\n' :: ("x\n```" : String).data)) = none :=
  ⟨by decide, by decide, C4_tick_in_tag_no_match [tick] _ (by decide) (by decide)⟩

/-- C5 counterexample: the input holds an opening-fence shape (three
backticks, empty tag, newline) with no triple backtick anywhere after it,
yet the fence does not pass through unchanged — it is consumed as the
closing delimiter of the fence that precedes it. -/
theorem C5_counterexample :
    ("```\nx```\ny" : String).data =
      ("```\nx" : String).data ++ (tripleL ++ (([] : List Char) ++ '\n' :: ("y" : String).data)) ∧
    hasTriple ("y" : String).data = false ∧
    strip_codeblocks "```\nx```\ny" = "x\ny" ∧
    strip_codeblocks "```\nx```\ny" ≠ "```\nx```\ny" :=
  ⟨by decide, by decide, by decide, by decide⟩

/-- C5 (amended): an opening-fence shape followed by no triple backtick is
never itself matched as an opening fence; and when additionally no match
of the pattern starts inside the preceding text, the whole input passes
through unchanged. -/
theorem C5_unterminated_amended (pre tag body : List Char)
    (ht : ∀ c ∈ tag, tagChar c = true) (hb : hasTriple body = false) :
    matchAt (tripleL ++ (tag ++ '\n' :: body)) = none ∧
    ((∀ a b, pre = a ++ b → b ≠ [] →
        matchAt (b ++ (tripleL ++ (tag ++ '\n' :: body))) = none) →
      stripList (pre ++ (tripleL ++ (tag ++ '\n' :: body))) =
        pre ++ (tripleL ++ (tag ++ '\n' :: body))) := by
  have hnone : matchAt (tripleL ++ (tag ++ '\n' :: body)) = none := by
    rw [matchAt_fence tag body ht, findClose_none body hb]
  refine ⟨hnone, fun hpre => ?_⟩
  rw [stripList_append_nomatch pre _ hpre]
  have hF : stripList (tripleL ++ (tag ++ '\n' :: body)) =
      tripleL ++ (tag ++ '\n' :: body) := by
    apply stripList_of_nomatch
    intro a b hab
    cases hm : matchAt b with
    | none => rfl
    | some p =>
      exfalso
      obtain ⟨u, v⟩ := p
      obtain ⟨t', _, hbshape, _⟩ := matchAt_some_spec b u v hm
      have hbt : hasTriple b = true := by
        rw [hbshape]
        exact (hasTriple_iff _).mpr ⟨[], t' ++ '\n' :: (u ++ tripleL ++ v), by simp⟩
      match a, hab with
      | [], hab =>
        have hb' : b = tripleL ++ (tag ++ '\n' :: body) := by simpa using hab.symm
        rw [hb', hnone] at hm
        exact Option.noConfusion hm
      | x :: a', hab =>
        have htail : a' ++ b = tick :: tick :: (tag ++ '\n' :: body) := by
          have h' : tick :: (tick :: tick :: (tag ++ '\n' :: body)) = x :: (a' ++ b) := by
            simpa [tripleL] using hab
          injection h' with _ h2
          exact h2.symm
        have hTT : hasTriple (tick :: tick :: (tag ++ '\n' :: body)) = false :=
          noTriple_two_ticks _ (noTriple_tag_body tag body ht hb)
            (head_tag_body_ne_tick tag body ht)
        have htr : hasTriple (a' ++ b) = true := hasTriple_append_right a' b hbt
        rw [htail, hTT] at htr
        exact Bool.false_ne_true htr
  rw [hF]

/-- C5 witness: a concrete unterminated fence after plain text. -/
theorem C5_witness :
    (∀ c ∈ ("rs" : String).data, tagChar c = true) ∧
    hasTriple ("no close" : String).data = false ∧
    matchAt (tripleL ++ (("rs" : String).data ++ '\n' :: ("no close" : String).data)) = none :=
  ⟨by decide, by decide,
    (C5_unterminated_amended [] ("rs" : String).data ("no close" : String).data
      (by decide) (by decide)).1⟩

/-- C6 counterexample: two well-formed blocks (contents without triple
backticks) separated by triple-backtick-free text, yet the output is not
content-1 ++ text ++ content-2: the first content's trailing backticks
leak, merge with the separator's leading backtick into a fresh opening
fence, and steal the second block's opening fence. -/
theorem C6_counterexample :
    hasTriple ("a``" : String).data = false ∧
    hasTriple ("`t\nu" : String).data = false ∧
    hasTriple ("c\n" : String).data = false ∧
    ("```\na``" ++ "```" ++ "`t\nu" ++ "```\n" ++ "c\n" ++ "```" : String).data =
      tripleL ++ (([] : List Char) ++ '\n' :: (("a``" : String).data ++ tripleL ++
        (("`t\nu" : String).data ++ (tripleL ++ (([] : List Char) ++ '\n' ::
          (("c\n" : String).data ++ tripleL)))))) ∧
    stripList ("```\na``" ++ "```" ++ "`t\nu" ++ "```\n" ++ "c\n" ++ "```" : String).data ≠
      ("a``" : String).data ++ (("`t\nu" : String).data ++ ("c\n" : String).data) ∧
    stripList ("```\na``" ++ "```" ++ "`t\nu" ++ "```\n" ++ "c\n" ++ "```" : String).data =
      ("au\nc\n```" : String).data :=
  ⟨by decide, by decide, by decide, by decide, by decide, by decide⟩

/-- C6 (amended): for two well-formed blocks with contents A and B
separated by text T without a triple-backtick run, and provided the first
content's trailing backticks do not meet a leading backtick of the
separator (A does not end with a backtick, or T does not start with one),
the output is A ++ T ++ B: blocks are replaced left to right,
independently, with the interleaved text preserved in order. -/
theorem C6_two_blocks_amended (L1 L2 A T B : List Char)
    (hL1 : ∀ c ∈ L1, tagChar c = true) (hL2 : ∀ c ∈ L2, tagChar c = true)
    (hA : hasTriple A = false) (hT : hasTriple T = false) (hB : hasTriple B = false)
    (hj : ¬(A.getLast? = some tick ∧ T.head? = some tick)) :
    stripList (tripleL ++ (L1 ++ '\n' ::
        (A ++ tripleL ++ (T ++ (tripleL ++ (L2 ++ '\n' :: (B ++ tripleL))))))) =
      A ++ (T ++ B) := by
  obtain ⟨A0, a, ha2, hAdec, hfc1⟩ :=
    findClose_content A (T ++ (tripleL ++ (L2 ++ '\n' :: (B ++ tripleL)))) hA
  rw [stripList_fence L1 _ A0 _ hL1 hfc1]
  have hhead : 1 ≤ a → T.head? ≠ some tick := by
    intro h1 hTh
    apply hj
    refine ⟨?_, hTh⟩
    rw [hAdec]
    rw [List.getLast?_append_of_ne_nil A0 (by
      intro he
      have hhe := congrArg List.length he
      simp at hhe
      omega)]
    obtain ⟨m, rfl⟩ : ∃ m, a = m + 1 := ⟨a - 1, by omega⟩
    rw [List.replicate_succ', List.getLast?_concat]
  rw [stripList_mid a T L2 B ha2 hT hhead hL2 hB]
  rw [hAdec]
  simp [List.append_assoc]

/-- C6 witness: two concrete blocks with separator text. -/
theorem C6_witness :
    (∀ c ∈ ("rs" : String).data, tagChar c = true) ∧
    (∀ c ∈ ("py" : String).data, tagChar c = true) ∧
    hasTriple ("x\n" : String).data = false ∧
    hasTriple ("mid\n" : String).data = false ∧
    hasTriple ("y\n" : String).data = false ∧
    ¬(("x\n" : String).data.getLast? = some tick ∧
      ("mid\n" : String).data.head? = some tick) ∧
    stripList (tripleL ++ (("rs" : String).data ++ '\n' ::
        (("x\n" : String).data ++ tripleL ++ (("mid\n" : String).data ++ (tripleL ++
          (("py" : String).data ++ '\n' :: (("y\n" : String).data ++ tripleL))))))) =
      ("x\n" : String).data ++ (("mid\n" : String).data ++ ("y\n" : String).data) :=
  ⟨by decide, by decide, by decide, by decide, by decide, by decide,
    C6_two_blocks_amended _ _ _ _ _ (by decide) (by decide) (by decide) (by decide)
      (by decide) (by decide)⟩

/-- C7: the function is total: the only fallible step, constructing the
matching engine from the fixed pattern literal, always succeeds in the
model, so the checked variant never reaches its panic branch and agrees
with strip_codeblocks on every input. -/
theorem C7_total_no_panic (text : String) :
    strip_codeblocksChecked text = some (strip_codeblocks text) := rfl

/-- C8: a block with no content yields the empty capture, and one with
only a newline yields that newline. -/
theorem C8_empty_content :
    strip_codeblocks "```\n\n```" = "\n" ∧ strip_codeblocks "```\n```" = "" :=
  ⟨by decide, by decide⟩

/-- C9: the function is deterministic: equal inputs give equal outputs
(the embedding is a pure function of its argument). -/
theorem C9_deterministic (s t : String) (h : s = t) :
    strip_codeblocks s = strip_codeblocks t := by rw [h]

/-- C9 witness: determinism at a concrete input. -/
theorem C9_witness :
    ("ab" : String) = "ab" ∧ strip_codeblocks "ab" = strip_codeblocks "ab" :=
  ⟨rfl, C9_deterministic "ab" "ab" rfl⟩

/-- C10: the output is always a subsequence of the input (characters are
only deleted), hence never longer; its length equals the input's exactly
when no position of the input matches the fence pattern, which is also
exactly when the output equals the input. -/
theorem C10_subsequence_invariant (s : List Char) :
    List.Sublist (stripList s) s ∧ (stripList s).length ≤ s.length ∧
      ((stripList s).length = s.length ↔ ∀ a b, s = a ++ b → matchAt b = none) ∧
      (stripList s = s ↔ ∀ a b, s = a ++ b → matchAt b = none) := by
  have hsub := stripList_sublist s
  have hlen := hsub.length_le
  have hiff2 : stripList s = s ↔ ∀ a b, s = a ++ b → matchAt b = none := by
    constructor
    · intro he a b hs
      cases hm : matchAt b with
      | none => rfl
      | some p =>
        obtain ⟨u, v⟩ := p
        have hlt := stripList_shorter_of_match a b s u v hs hm
        rw [he] at hlt
        omega
    · exact stripList_of_nomatch s
  refine ⟨hsub, hlen, ?_, hiff2⟩
  constructor
  · intro he
    exact hiff2.mp (hsub.eq_of_length he)
  · intro h
    rw [hiff2.mpr h]
